import Mathlib

/-!
Verification of the card-region detection and rectification component
(`CardDetector` in `business_card/preprocessing/card_detector.py`).

The OpenCV primitives (edge masks, `findContours`, `contourArea`,
`approxPolyDP`, `isContourConvex`, `warpPerspective` pixel data) are
treated as oracles: a `Contour` records the values those primitives
return for one raw contour, and the per-strategy contour lists are a
parameter of `detectFromArray`.  The selection, ordering, sizing,
clamping and fallback logic — the code under verification — is embedded
directly from the source.  Python float arithmetic is modelled by exact
rational arithmetic; `int(·)` (truncation toward zero) is `pyInt`.
An image is represented by its pixel-grid dimensions, which is all the
verified logic inspects.
-/

namespace BusinessCard

/-- A 2-D point with rational coordinates (models a float32 point). -/
abbrev Point := ℚ × ℚ

/-- `CardDetector.MAX_PROCESS_DIM`: maximum dimension for processing. -/
def MAX_PROCESS_DIM : ℕ := 1500

/-- `CardDetector.MAX_OCR_DIM`: maximum dimension for OCR output. -/
def MAX_OCR_DIM : ℕ := 2000

/-- Constructor parameters of `CardDetector`. -/
structure Config where
  minAreaRatio : ℚ
  maxAreaRatio : ℚ
  cannyLow : ℕ
  cannyHigh : ℕ
  epsilonFactor : ℚ
deriving DecidableEq

/-- The default constructor arguments of `CardDetector.__init__`. -/
def defaultConfig : Config :=
  { minAreaRatio := 1/20, maxAreaRatio := 17/20,
    cannyLow := 50, cannyHigh := 150, epsilonFactor := 1/50 }

/-- An image, represented by the dimensions of its pixel grid
(`shape[:2]` of the BGR numpy array).  The empty-buffer check
`img.size == 0` corresponds to `h * w = 0`. -/
structure Img where
  h : ℕ
  w : ℕ
deriving DecidableEq

/-- Python `int(q)` on a float value: truncation toward zero. -/
def pyInt (q : ℚ) : ℤ := if 0 ≤ q then ⌊q⌋ else -⌊-q⌋

/-- A pixel dimension obtained from Python `int(q)` with `0 ≤ q`. -/
def toDim (q : ℚ) : ℕ := (pyInt q).toNat

/-- First point of `pts` minimising `f` (`pts[np.argmin(map f pts)]`:
numpy's `argmin` returns the first index attaining the minimum). -/
def argminBy (f : Point → ℚ) : List Point → Point
  | [] => (0, 0)
  | p :: ps => ps.foldl (fun best q => if f q < f best then q else best) p

/-- First point of `pts` maximising `f` (`pts[np.argmax(map f pts)]`:
numpy's `argmax` returns the first index attaining the maximum). -/
def argmaxBy (f : Point → ℚ) : List Point → Point
  | [] => (0, 0)
  | p :: ps => ps.foldl (fun best q => if f best < f q then q else best) p

/-- Coordinate sum `x + y` (`pts.sum(axis=1)` entry). -/
def sumXY (p : Point) : ℚ := p.1 + p.2

/-- Coordinate difference `y − x`: `np.diff(pts, axis=1)` on a `(4, 2)`
array computes `pts[:, 1] - pts[:, 0]`. -/
def diffYX (p : Point) : ℚ := p.2 - p.1

/-- `CardDetector._order_points`: `rect[0] = pts[argmin(s)]`,
`rect[1] = pts[argmin(d)]`, `rect[2] = pts[argmax(s)]`,
`rect[3] = pts[argmax(d)]` with `s = x + y` and `d = y − x`; the result
is the list `[rect[0], rect[1], rect[2], rect[3]]` (TL, TR, BR, BL). -/
def orderPoints (pts : List Point) : List Point :=
  [argminBy sumXY pts, argminBy diffYX pts, argmaxBy sumXY pts, argmaxBy diffYX pts]

/-- Modelled from the spec: the corner-ordering rule as the spec words
it (§4.4): minimum `(x+y)` is top-left, minimum `(x−y)` is top-right,
maximum `(x+y)` is bottom-right, maximum `(x−y)` is bottom-left.  This
definition follows the spec's words, not the source, and exists only to
be compared with `orderPoints`. -/
def specOrderRule (pts : List Point) : List Point :=
  [argminBy sumXY pts,
   argminBy (fun p => p.1 - p.2) pts,
   argmaxBy sumXY pts,
   argmaxBy (fun p => p.1 - p.2) pts]

/-- Squared Euclidean distance between two points. -/
def distSq (p q : Point) : ℚ := (p.1 - q.1) ^ 2 + (p.2 - q.2) ^ 2

/-- Truncated square root of a rational `q ≥ 0`: models
`int(np.linalg.norm(v))` where `q` is the squared norm, using the
identity `⌊√q⌋ = Nat.sqrt ⌊q⌋` for `q ≥ 0`. -/
def isqrtFloor (q : ℚ) : ℕ := Nat.sqrt (toDim q)

/-- Output dimensions `(width, height)` computed by
`CardDetector._perspective_transform` (lines 266–286): order the 4
contour points, take the truncated maximum of the top/bottom edge
lengths as width and of the left/right edge lengths as height, then
clamp `width = max(width, 100)` and `height = max(height, 60)`.
`int(max(a, b))` of the two norms equals the max of the two truncated
norms, since the floor function is monotone. -/
def perspectiveDims (contour : List (ℤ × ℤ)) : ℕ × ℕ :=
  let pts : List Point := contour.map fun p => ((p.1 : ℚ), (p.2 : ℚ))
  let ordered := orderPoints pts
  let tl := ordered.getD 0 (0, 0)
  let tr := ordered.getD 1 (0, 0)
  let br := ordered.getD 2 (0, 0)
  let bl := ordered.getD 3 (0, 0)
  let width := max (isqrtFloor (distSq tl tr)) (isqrtFloor (distSq br bl))
  let height := max (isqrtFloor (distSq tl bl)) (isqrtFloor (distSq tr br))
  (max width 100, max height 60)

/-- The image produced by `cv2.warpPerspective(img, matrix, (width,
height))`: its `shape[:2]` is `(height, width)`. -/
def rectifiedImg (contour : List (ℤ × ℤ)) : Img :=
  ⟨(perspectiveDims contour).2, (perspectiveDims contour).1⟩

/-- One raw contour as seen through the OpenCV oracles:
`area` is `cv2.contourArea(contour)`, `approx` the vertex list of
`cv2.approxPolyDP(contour, epsilon, True)`, and `approxConvex` the
value of `cv2.isContourConvex(approx)`. -/
structure Contour where
  area : ℚ
  approx : List (ℤ × ℤ)
  approxConvex : Bool
deriving DecidableEq

/-- The contours kept by the loop of `CardDetector._find_card_contour`
(lines 228–244): area within `[min_area, max_area]` (a contour is
skipped iff `area < min_area or area > max_area`), approximation with
exactly 4 vertices, and convex. -/
def survivors (cfg : Config) (contours : List Contour) (imgH imgW : ℕ) : List Contour :=
  let imgArea : ℚ := ((imgH * imgW : ℕ) : ℚ)
  let minArea := imgArea * cfg.minAreaRatio
  let maxArea := imgArea * cfg.maxAreaRatio
  contours.filter fun c =>
    !(decide (c.area < minArea) || decide (maxArea < c.area)) &&
      (decide (c.approx.length = 4) && c.approxConvex)

/-- Insertion step of a stable descending sort by area: the new element
passes over strictly larger areas and lands before the first element of
equal-or-smaller area. -/
def insertByAreaDesc (c : Contour) : List Contour → List Contour
  | [] => [c]
  | d :: ds => if d.area ≤ c.area then c :: d :: ds else d :: insertByAreaDesc c ds

/-- Stable descending sort by area, modelling Python's stable
`candidates.sort(key=lambda x: x[0], reverse=True)`. -/
def sortByAreaDesc : List Contour → List Contour
  | [] => []
  | c :: cs => insertByAreaDesc c (sortByAreaDesc cs)

/-- `CardDetector._find_card_contour`: filter the contours, sort the
surviving candidates by descending area (stably) and return the first,
or `None` when no candidate survives. -/
def findCardContour (cfg : Config) (contours : List Contour) (imgH imgW : ℕ) :
    Option Contour :=
  (sortByAreaDesc (survivors cfg contours imgH imgW)).head?

/-- Result of the processing-size governor (lines 91–98): dimensions of
the image handed to the strategies, and the recorded scale factor. -/
structure Resized where
  newH : ℕ
  newW : ℕ
  scale : ℚ
deriving DecidableEq

/-- Lines 91–98 of `detect_from_array`: if `max(orig_h, orig_w) >
MAX_PROCESS_DIM`, record `scale = MAX_PROCESS_DIM / max(orig_h,
orig_w)` and resize to `(int(orig_w * scale), int(orig_h * scale))`;
otherwise keep the image and `scale = 1`. -/
def resizedDims (h w : ℕ) : Resized :=
  if MAX_PROCESS_DIM < max h w then
    let scale : ℚ := (MAX_PROCESS_DIM : ℚ) / ((max h w : ℕ) : ℚ)
    { newH := toDim ((h : ℚ) * scale), newW := toDim ((w : ℚ) * scale), scale := scale }
  else
    { newH := h, newW := w, scale := 1 }

/-- Lines 117–121: scale a detected contour back to the original image,
`(card_contour.astype(np.float32) / scale).astype(np.int32)`; the
`int32` cast truncates toward zero.  Skipped when `scale == 1.0`. -/
def scaleBack (scale : ℚ) (pts : List (ℤ × ℤ)) : List (ℤ × ℤ) :=
  if scale = 1 then pts
  else pts.map fun p => (pyInt ((p.1 : ℚ) / scale), pyInt ((p.2 : ℚ) / scale))

/-- Lines 125–137: if `max(crop_h, crop_w) > MAX_OCR_DIM`, resize the
cropped result to `(int(crop_w * s), int(crop_h * s))` with
`s = MAX_OCR_DIM / max(crop_h, crop_w)`; otherwise return it as is. -/
def clampToOcr (im : Img) : Img :=
  if MAX_OCR_DIM < max im.h im.w then
    let s : ℚ := (MAX_OCR_DIM : ℚ) / ((max im.h im.w : ℕ) : ℚ)
    ⟨toDim ((im.h : ℚ) * s), toDim ((im.w : ℚ) * s)⟩
  else im

/-- The strategy loop of `detect_from_array` (lines 108–137): for each
strategy in order, if it produced contours and `_find_card_contour`
accepts one, scale the winner back, rectify it, clamp the result to
`MAX_OCR_DIM` and return; otherwise move to the next strategy.  The
argument list holds, per strategy, the contours `cv2.findContours`
extracts from that strategy's mask. -/
def tryStrategies (cfg : Config) (r : Resized) : List (List Contour) → Option Img
  | [] => none
  | contours :: rest =>
    match (if contours.isEmpty then none
           else findCardContour cfg contours r.newH r.newW) with
    | some c => some (clampToOcr (rectifiedImg (scaleBack r.scale c.approx)))
    | none => tryStrategies cfg r rest

/-- `CardDetector.detect_from_array`: `None` for an absent image or an
empty pixel buffer; otherwise run the size governor and the strategy
loop; if every strategy fails, apply the fallback policy (lines
141–148): when `fallback_resize` is set and `max(orig_h, orig_w) >
MAX_OCR_DIM`, return the original resized to that bound, else `None`. -/
def detectFromArray (cfg : Config) (img : Option Img)
    (strat : List (List Contour)) (fallbackResize : Bool) : Option Img :=
  match img with
  | none => none
  | some im =>
    if im.h * im.w = 0 then none
    else
      let r := resizedDims im.h im.w
      match tryStrategies cfg r strat with
      | some out => some out
      | none =>
        if fallbackResize ∧ MAX_OCR_DIM < max im.h im.w then
          let fs : ℚ := (MAX_OCR_DIM : ℚ) / ((max im.h im.w : ℕ) : ℚ)
          some ⟨toDim ((im.h : ℚ) * fs), toDim ((im.w : ℚ) * fs)⟩
        else none

/-- `CardDetector.detect`: decode the file (`cv2.imread`); on decode
failure (`None`) return `None`, otherwise delegate to
`detect_from_array`.  `decoded` is the decoder's result. -/
def detect (cfg : Config) (decoded : Option Img)
    (strat : List (List Contour)) (fallbackResize : Bool) : Option Img :=
  match decoded with
  | none => none
  | some im => detectFromArray cfg (some im) strat fallbackResize

/-- The axis-aligned rectangle of spec property P6, already in
TL, TR, BR, BL order. -/
def rectPts : List Point := [(100, 100), (300, 100), (300, 200), (100, 200)]

section Lemmas

/-- The fold underlying `argminBy` returns one of the candidates. -/
lemma foldlMin_mem (f : Point → ℚ) (a : Point) (l : List Point) :
    l.foldl (fun best q => if f q < f best then q else best) a ∈ a :: l := by
  induction l generalizing a with
  | nil => simp
  | cons b t ih =>
    simp only [List.foldl_cons]
    by_cases h : f b < f a
    · rw [if_pos h]
      have hb := ih b
      simp only [List.mem_cons] at hb ⊢
      tauto
    · rw [if_neg h]
      have ha := ih a
      simp only [List.mem_cons] at ha ⊢
      tauto

/-- The fold underlying `argminBy` minimises `f` over the candidates. -/
lemma foldlMin_le (f : Point → ℚ) (a : Point) (l : List Point) :
    ∀ p ∈ a :: l, f (l.foldl (fun best q => if f q < f best then q else best) a) ≤ f p := by
  induction l generalizing a with
  | nil =>
    intro p hp
    simp only [List.mem_singleton] at hp
    subst hp
    simp
  | cons b t ih =>
    intro p hp
    simp only [List.foldl_cons]
    by_cases h : f b < f a
    · rw [if_pos h]
      rcases List.mem_cons.mp hp with rfl | hp'
      · exact le_trans (ih b b (by simp)) (le_of_lt h)
      · exact ih b p hp'
    · rw [if_neg h]
      rcases List.mem_cons.mp hp with hpa | hp'
      · rw [hpa]
        exact ih a a (by simp)
      · rcases List.mem_cons.mp hp' with hpb | hp''
        · rw [hpb]
          exact le_trans (ih a a (by simp)) (not_lt.mp h)
        · exact ih a p (by simp [hp''])

/-- The fold underlying `argmaxBy` returns one of the candidates. -/
lemma foldlMax_mem (f : Point → ℚ) (a : Point) (l : List Point) :
    l.foldl (fun best q => if f best < f q then q else best) a ∈ a :: l := by
  induction l generalizing a with
  | nil => simp
  | cons b t ih =>
    simp only [List.foldl_cons]
    by_cases h : f a < f b
    · rw [if_pos h]
      have hb := ih b
      simp only [List.mem_cons] at hb ⊢
      tauto
    · rw [if_neg h]
      have ha := ih a
      simp only [List.mem_cons] at ha ⊢
      tauto

/-- The fold underlying `argmaxBy` maximises `f` over the candidates. -/
lemma foldlMax_le (f : Point → ℚ) (a : Point) (l : List Point) :
    ∀ p ∈ a :: l, f p ≤ f (l.foldl (fun best q => if f best < f q then q else best) a) := by
  induction l generalizing a with
  | nil =>
    intro p hp
    simp only [List.mem_singleton] at hp
    subst hp
    simp
  | cons b t ih =>
    intro p hp
    simp only [List.foldl_cons]
    by_cases h : f a < f b
    · rw [if_pos h]
      rcases List.mem_cons.mp hp with rfl | hp'
      · exact le_trans (le_of_lt h) (ih b b (by simp))
      · exact ih b p hp'
    · rw [if_neg h]
      rcases List.mem_cons.mp hp with hpa | hp'
      · rw [hpa]
        exact ih a a (by simp)
      · rcases List.mem_cons.mp hp' with hpb | hp''
        · rw [hpb]
          exact le_trans (not_lt.mp h) (ih a a (by simp))
        · exact ih a p (by simp [hp''])

/-- `argminBy` of a non-empty list returns one of its elements. -/
lemma argminBy_mem (f : Point → ℚ) (l : List Point) (h : l ≠ []) : argminBy f l ∈ l := by
  cases l with
  | nil => exact absurd rfl h
  | cons a t => exact foldlMin_mem f a t

/-- `argminBy` attains the minimum of `f` over the list. -/
lemma argminBy_le (f : Point → ℚ) (l : List Point) : ∀ p ∈ l, f (argminBy f l) ≤ f p := by
  cases l with
  | nil => intro p hp; exact absurd hp (by simp)
  | cons a t => exact foldlMin_le f a t

/-- `argmaxBy` of a non-empty list returns one of its elements. -/
lemma argmaxBy_mem (f : Point → ℚ) (l : List Point) (h : l ≠ []) : argmaxBy f l ∈ l := by
  cases l with
  | nil => exact absurd rfl h
  | cons a t => exact foldlMax_mem f a t

/-- `argmaxBy` attains the maximum of `f` over the list. -/
lemma argmaxBy_le (f : Point → ℚ) (l : List Point) : ∀ p ∈ l, f p ≤ f (argmaxBy f l) := by
  cases l with
  | nil => intro p hp; exact absurd hp (by simp)
  | cons a t => exact foldlMax_le f a t

/-- A contour kept by the selector's filter is one of the input
contours, has area within the configured bounds, a 4-vertex
approximation, and a convex approximation. -/
lemma mem_survivors {cfg : Config} {contours : List Contour} {imgH imgW : ℕ}
    {c : Contour} (hc : c ∈ survivors cfg contours imgH imgW) :
    c ∈ contours ∧
      ((imgH * imgW : ℕ) : ℚ) * cfg.minAreaRatio ≤ c.area ∧
      c.area ≤ ((imgH * imgW : ℕ) : ℚ) * cfg.maxAreaRatio ∧
      c.approx.length = 4 ∧ c.approxConvex = true := by
  unfold survivors at hc
  have h1 := List.mem_filter.mp hc
  refine ⟨h1.1, ?_⟩
  have h2 := h1.2
  simp only [Bool.and_eq_true, Bool.not_eq_true', Bool.or_eq_false_iff,
    decide_eq_true_eq, decide_eq_false_iff_not, not_lt] at h2
  exact ⟨h2.1.1, h2.1.2, h2.2.1, h2.2.2⟩

/-- Membership is preserved by the insertion step of the sort. -/
lemma mem_insertByAreaDesc {x c : Contour} {l : List Contour} :
    x ∈ insertByAreaDesc c l ↔ x = c ∨ x ∈ l := by
  induction l with
  | nil => simp [insertByAreaDesc]
  | cons d ds ih =>
    unfold insertByAreaDesc
    by_cases h : d.area ≤ c.area
    · rw [if_pos h]
      simp [List.mem_cons]
    · rw [if_neg h]
      simp only [List.mem_cons, ih]
      tauto

/-- The stable descending sort permutes membership. -/
lemma mem_sortByAreaDesc {x : Contour} {l : List Contour} :
    x ∈ sortByAreaDesc l ↔ x ∈ l := by
  induction l with
  | nil => simp [sortByAreaDesc]
  | cons c cs ih =>
    unfold sortByAreaDesc
    rw [mem_insertByAreaDesc]
    simp [List.mem_cons, ih]

/-- The sort returns the empty list only on the empty list. -/
lemma sortByAreaDesc_eq_nil {l : List Contour} : sortByAreaDesc l = [] ↔ l = [] := by
  constructor
  · intro h
    cases l with
    | nil => rfl
    | cons c cs =>
      exfalso
      have hm : c ∈ sortByAreaDesc (c :: cs) := mem_sortByAreaDesc.mpr (by simp)
      rw [h] at hm
      exact absurd hm (by simp)
  · intro h
    subst h
    rfl

/-- The head of the stable descending sort is the first element of the
original list attaining the maximal area: it is a member, its area
dominates every member, and every element before it in the original
order has strictly smaller area. -/
lemma head_sortByAreaDesc {l : List Contour} {c : Contour}
    (h : (sortByAreaDesc l).head? = some c) :
    c ∈ l ∧ (∀ d ∈ l, d.area ≤ c.area) ∧
      ∃ l1 l2, l = l1 ++ c :: l2 ∧ ∀ d ∈ l1, d.area < c.area := by
  induction l generalizing c with
  | nil => simp [sortByAreaDesc] at h
  | cons a t ih =>
    unfold sortByAreaDesc at h
    cases hs : sortByAreaDesc t with
    | nil =>
      have ht : t = [] := sortByAreaDesc_eq_nil.mp hs
      subst ht
      rw [hs] at h
      simp only [insertByAreaDesc, List.head?] at h
      have hca : c = a := by injection h with h; exact h.symm
      subst hca
      exact ⟨by simp, by simp, [], [], by simp, by simp⟩
    | cons m rest =>
      rw [hs] at h
      have hm := ih (c := m) (by simp [hs])
      unfold insertByAreaDesc at h
      by_cases hma : m.area ≤ a.area
      · rw [if_pos hma] at h
        simp only [List.head?] at h
        have hca : c = a := by injection h with h; exact h.symm
        subst hca
        refine ⟨by simp, ?_, [], t, by simp, by simp⟩
        intro d hd
        rcases List.mem_cons.mp hd with rfl | hd'
        · exact le_refl _
        · exact le_trans (hm.2.1 d hd') hma
      · rw [if_neg hma] at h
        simp only [List.head?] at h
        have hcm : c = m := by injection h with h; exact h.symm
        subst hcm
        have ham : a.area < c.area := not_le.mp hma
        obtain ⟨l1, l2, hsplit, hl1⟩ := hm.2.2
        refine ⟨by simp [hm.1], ?_, a :: l1, l2, by simp [hsplit], ?_⟩
        · intro d hd
          rcases List.mem_cons.mp hd with rfl | hd'
          · exact le_of_lt ham
          · exact hm.2.1 d hd'
        · intro d hd
          rcases List.mem_cons.mp hd with rfl | hd'
          · exact ham
          · exact hl1 d hd'

/-- A contour returned by `_find_card_contour` survived the filter. -/
lemma findCardContour_mem {cfg : Config} {contours : List Contour} {imgH imgW : ℕ}
    {c : Contour} (h : findCardContour cfg contours imgH imgW = some c) :
    c ∈ survivors cfg contours imgH imgW := by
  exact (head_sortByAreaDesc h).1

/-- `toDim` is bounded by any natural bound on its argument. -/
lemma toDim_le_of_le {q : ℚ} {n : ℕ} (h : q ≤ n) : toDim q ≤ n := by
  unfold toDim pyInt
  by_cases h0 : 0 ≤ q
  · rw [if_pos h0]
    have hf : ⌊q⌋ ≤ (n : ℤ) := by
      have := Int.floor_le_floor h
      simpa using this
    omega
  · rw [if_neg h0]
    have hq : 0 ≤ -q := by linarith [not_le.mp h0]
    have hf : 0 ≤ ⌊-q⌋ := Int.floor_nonneg.mpr hq
    omega

/-- The output-size clamp always produces dimensions within
`MAX_OCR_DIM`, whether or not it fires. -/
lemma clampToOcr_le (im : Img) :
    (clampToOcr im).h ≤ MAX_OCR_DIM ∧ (clampToOcr im).w ≤ MAX_OCR_DIM := by
  unfold clampToOcr
  by_cases hc : MAX_OCR_DIM < max im.h im.w
  · rw [if_pos hc]
    have hm : (0 : ℚ) < ((max im.h im.w : ℕ) : ℚ) := by
      have : 0 < max im.h im.w := lt_of_le_of_lt (Nat.zero_le _) hc
      exact_mod_cast this
    have key : ∀ d : ℕ, d ≤ max im.h im.w →
        toDim ((d : ℚ) * ((MAX_OCR_DIM : ℚ) / ((max im.h im.w : ℕ) : ℚ))) ≤ MAX_OCR_DIM := by
      intro d hd
      apply toDim_le_of_le
      have hdq : (d : ℚ) ≤ ((max im.h im.w : ℕ) : ℚ) := by exact_mod_cast hd
      have hnn : (0 : ℚ) ≤ (MAX_OCR_DIM : ℚ) / ((max im.h im.w : ℕ) : ℚ) := by positivity
      have hne : ((max im.h im.w : ℕ) : ℚ) ≠ 0 := ne_of_gt hm
      calc (d : ℚ) * ((MAX_OCR_DIM : ℚ) / ((max im.h im.w : ℕ) : ℚ))
          ≤ ((max im.h im.w : ℕ) : ℚ) * ((MAX_OCR_DIM : ℚ) / ((max im.h im.w : ℕ) : ℚ)) :=
            mul_le_mul_of_nonneg_right hdq hnn
        _ = (MAX_OCR_DIM : ℚ) *
              (((max im.h im.w : ℕ) : ℚ) / ((max im.h im.w : ℕ) : ℚ)) := by ring
        _ = (MAX_OCR_DIM : ℚ) := by rw [div_self hne, mul_one]
    exact ⟨key im.h (le_max_left _ _), key im.w (le_max_right _ _)⟩
  · rw [if_neg hc]
    push_neg at hc
    exact ⟨le_trans (le_max_left _ _) hc, le_trans (le_max_right _ _) hc⟩

/-- Any image returned by the strategy loop went through the clamp, so
its dimensions are within `MAX_OCR_DIM`. -/
lemma tryStrategies_some_le {cfg : Config} {r : Resized} {strat : List (List Contour)}
    {im : Img} (h : tryStrategies cfg r strat = some im) :
    im.h ≤ MAX_OCR_DIM ∧ im.w ≤ MAX_OCR_DIM := by
  induction strat with
  | nil => simp [tryStrategies] at h
  | cons cs rest ih =>
    rw [tryStrategies] at h
    cases hf : (if cs.isEmpty then none else findCardContour cfg cs r.newH r.newW) with
    | some c =>
      rw [hf] at h
      simp only at h
      have him : im = clampToOcr (rectifiedImg (scaleBack r.scale c.approx)) := by
        injection h with h
        exact h.symm
      rw [him]
      exact clampToOcr_le _
    | none =>
      rw [hf] at h
      exact ih h

/-- Evaluation rule for `toDim` at a known floor value. -/
lemma toDim_eq {q : ℚ} {n : ℕ} (h1 : (n : ℚ) ≤ q) (h2 : q < n + 1) : toDim q = n := by
  have h0 : (0 : ℚ) ≤ q := le_trans (by positivity) h1
  unfold toDim pyInt
  rw [if_pos h0]
  have hf : ⌊q⌋ = (n : ℤ) := by
    rw [Int.floor_eq_iff]
    refine ⟨by exact_mod_cast h1, by push_cast; exact h2⟩
  rw [hf]
  simp

end Lemmas

/-- C2 (amended): for any non-empty list of 2-D points, the
corner-ordering operation places at index 0 a point attaining the
minimum of `x + y`, at index 2 a point attaining the maximum of
`x + y`, at index 1 a point attaining the minimum of `y − x`
(equivalently the maximum of `x − y`), and at index 3 a point attaining
the maximum of `y − x` (equivalently the minimum of `x − y`). -/
theorem c2_corner_rule_extrema (pts : List Point) (h : pts ≠ []) :
    ((orderPoints pts).getD 0 (0, 0) ∈ pts ∧
      ∀ p ∈ pts, sumXY ((orderPoints pts).getD 0 (0, 0)) ≤ sumXY p) ∧
    ((orderPoints pts).getD 1 (0, 0) ∈ pts ∧
      ∀ p ∈ pts, diffYX ((orderPoints pts).getD 1 (0, 0)) ≤ diffYX p) ∧
    ((orderPoints pts).getD 2 (0, 0) ∈ pts ∧
      ∀ p ∈ pts, sumXY p ≤ sumXY ((orderPoints pts).getD 2 (0, 0))) ∧
    ((orderPoints pts).getD 3 (0, 0) ∈ pts ∧
      ∀ p ∈ pts, diffYX p ≤ diffYX ((orderPoints pts).getD 3 (0, 0))) := by
  simp only [orderPoints, List.getD_cons_zero, List.getD_cons_succ]
  exact ⟨⟨argminBy_mem _ _ h, argminBy_le _ _⟩, ⟨argminBy_mem _ _ h, argminBy_le _ _⟩,
    ⟨argmaxBy_mem _ _ h, argmaxBy_le _ _⟩, ⟨argmaxBy_mem _ _ h, argmaxBy_le _ _⟩⟩

/-- Witness for C2 (amended) at the concrete rectangle `rectPts`. -/
theorem c2_corner_rule_extrema_witness :
    (orderPoints rectPts).getD 0 (0, 0) ∈ rectPts ∧
    sumXY ((orderPoints rectPts).getD 0 (0, 0)) ≤ sumXY (300, 100) := by
  refine ⟨(c2_corner_rule_extrema rectPts (by simp [rectPts])).1.1, ?_⟩
  exact (c2_corner_rule_extrema rectPts (by simp [rectPts])).1.2 (300, 100) (by simp [rectPts])

/-- C2 counterexample: on the rectangle of P6 the code places
`(300, 100)` at index 1 (top-right), but the point of `rectPts` with
minimum `x − y` is `(100, 200)` (its `x − y = −100` is below the
`x − y = 200` of `(300, 100)`), so the spec's `x − y` rule disagrees
with the code, which uses `y − x`. -/
theorem c2_counterexample :
    (orderPoints rectPts).getD 1 (0, 0) = (300, 100) ∧
    ((100 : ℚ), (200 : ℚ)) ∈ rectPts ∧
    ((100 : ℚ) - 200 < (300 : ℚ) - 100) ∧
    orderPoints rectPts ≠ specOrderRule rectPts := by
  have ho : orderPoints rectPts = rectPts := by
    norm_num [orderPoints, rectPts, argminBy, argmaxBy, sumXY, diffYX]
  refine ⟨by rw [ho]; simp [rectPts], by simp [rectPts], by norm_num, ?_⟩
  norm_num [orderPoints, specOrderRule, rectPts, argminBy, argmaxBy, sumXY, diffYX]

/-- C4: ordering any permutation of the P6 rectangle corners yields
exactly `[(100,100), (300,100), (300,200), (100,200)]` (TL, TR, BR,
BL); in particular ordering the already-ordered list is a no-op. -/
theorem c4_perm_ordering :
    (∀ l : List Point, l.Perm rectPts → orderPoints l = rectPts) ∧
    orderPoints rectPts = rectPts := by
  have hbase : orderPoints rectPts = rectPts := by
    norm_num [orderPoints, rectPts, argminBy, argmaxBy, sumXY, diffYX]
  refine ⟨?_, hbase⟩
  intro l hperm
  have hne : l ≠ [] := by
    intro hnil
    rw [hnil] at hperm
    have := hperm.length_eq
    simp [rectPts] at this
  have hmem : ∀ p : Point, p ∈ l ↔ p ∈ rectPts := fun p => hperm.mem_iff
  have h0 : argminBy sumXY l = ((100 : ℚ), (100 : ℚ)) := by
    have hm := (hmem _).mp (argminBy_mem sumXY l hne)
    have hle := argminBy_le sumXY l ((100 : ℚ), (100 : ℚ)) ((hmem _).mpr (by simp [rectPts]))
    simp only [rectPts, List.mem_cons, List.not_mem_nil, or_false] at hm
    rcases hm with h | h | h | h
    · exact h
    · rw [h] at hle; norm_num [sumXY] at hle
    · rw [h] at hle; norm_num [sumXY] at hle
    · rw [h] at hle; norm_num [sumXY] at hle
  have h1 : argminBy diffYX l = ((300 : ℚ), (100 : ℚ)) := by
    have hm := (hmem _).mp (argminBy_mem diffYX l hne)
    have hle := argminBy_le diffYX l ((300 : ℚ), (100 : ℚ)) ((hmem _).mpr (by simp [rectPts]))
    simp only [rectPts, List.mem_cons, List.not_mem_nil, or_false] at hm
    rcases hm with h | h | h | h
    · rw [h] at hle; norm_num [diffYX] at hle
    · exact h
    · rw [h] at hle; norm_num [diffYX] at hle
    · rw [h] at hle; norm_num [diffYX] at hle
  have h2 : argmaxBy sumXY l = ((300 : ℚ), (200 : ℚ)) := by
    have hm := (hmem _).mp (argmaxBy_mem sumXY l hne)
    have hle := argmaxBy_le sumXY l ((300 : ℚ), (200 : ℚ)) ((hmem _).mpr (by simp [rectPts]))
    simp only [rectPts, List.mem_cons, List.not_mem_nil, or_false] at hm
    rcases hm with h | h | h | h
    · rw [h] at hle; norm_num [sumXY] at hle
    · rw [h] at hle; norm_num [sumXY] at hle
    · exact h
    · rw [h] at hle; norm_num [sumXY] at hle
  have h3 : argmaxBy diffYX l = ((100 : ℚ), (200 : ℚ)) := by
    have hm := (hmem _).mp (argmaxBy_mem diffYX l hne)
    have hle := argmaxBy_le diffYX l ((100 : ℚ), (200 : ℚ)) ((hmem _).mpr (by simp [rectPts]))
    simp only [rectPts, List.mem_cons, List.not_mem_nil, or_false] at hm
    rcases hm with h | h | h | h
    · rw [h] at hle; norm_num [diffYX] at hle
    · rw [h] at hle; norm_num [diffYX] at hle
    · rw [h] at hle; norm_num [diffYX] at hle
    · exact h
  simp only [orderPoints, h0, h1, h2, h3, rectPts]

/-- Witness for C4: a concrete permutation (first two corners swapped)
is ordered back to the canonical TL, TR, BR, BL sequence. -/
theorem c4_perm_ordering_witness :
    orderPoints [((300 : ℚ), (100 : ℚ)), (100, 100), (300, 200), (100, 200)] = rectPts := by
  have hp : List.Perm [((300 : ℚ), (100 : ℚ)), (100, 100), (300, 200), (100, 200)] rectPts :=
    List.Perm.swap _ _ _
  exact c4_perm_ordering.1 _ hp

/-- C5: a contour returned by the selector has its recorded enclosed
area within `[min_area_ratio, max_area_ratio] × image_area`; values
exactly at the bounds are admissible since the code skips a contour
only when `area < min_area or area > max_area`. -/
theorem c5_area_bounds (cfg : Config) (contours : List Contour) (imgH imgW : ℕ)
    (c : Contour) (h : findCardContour cfg contours imgH imgW = some c) :
    ((imgH * imgW : ℕ) : ℚ) * cfg.minAreaRatio ≤ c.area ∧
      c.area ≤ ((imgH * imgW : ℕ) : ℚ) * cfg.maxAreaRatio := by
  have hs := mem_survivors (findCardContour_mem h)
  exact ⟨hs.2.1, hs.2.2.1⟩

/-- Witness for C5: a 5000-area candidate in a 100×100 image (bounds
500 and 8500 under the default configuration) is selected, and the
theorem yields its bounds. -/
theorem c5_area_bounds_witness :
    ((100 * 100 : ℕ) : ℚ) * defaultConfig.minAreaRatio ≤
        (Contour.mk 5000 [(0, 0), (80, 0), (80, 60), (0, 60)] true).area ∧
      (Contour.mk 5000 [(0, 0), (80, 0), (80, 60), (0, 60)] true).area ≤
        ((100 * 100 : ℕ) : ℚ) * defaultConfig.maxAreaRatio := by
  have h : findCardContour defaultConfig
      [Contour.mk 5000 [(0, 0), (80, 0), (80, 60), (0, 60)] true] 100 100
      = some (Contour.mk 5000 [(0, 0), (80, 0), (80, 60), (0, 60)] true) := by
    norm_num [findCardContour, survivors, sortByAreaDesc, insertByAreaDesc,
      defaultConfig, List.filter]
  exact c5_area_bounds _ _ _ _ _ h

/-- C6: a contour returned by the selector always has a 4-vertex,
convex approximation; 3-vertex, ≥5-vertex or non-convex approximations
are never promoted. -/
theorem c6_shape_filter (cfg : Config) (contours : List Contour) (imgH imgW : ℕ)
    (c : Contour) (h : findCardContour cfg contours imgH imgW = some c) :
    c.approx.length = 4 ∧ c.approxConvex = true := by
  have hs := mem_survivors (findCardContour_mem h)
  exact ⟨hs.2.2.2.1, hs.2.2.2.2⟩

/-- Witness for C6: the selected candidate of the C5 configuration has
a 4-vertex convex approximation. -/
theorem c6_shape_filter_witness :
    (Contour.mk 6000 [(0, 0), (90, 0), (90, 66), (0, 66)] true).approx.length = 4 ∧
      (Contour.mk 6000 [(0, 0), (90, 0), (90, 66), (0, 66)] true).approxConvex = true := by
  have h : findCardContour defaultConfig
      [Contour.mk 6000 [(0, 0), (90, 0), (90, 66), (0, 66)] true] 100 100
      = some (Contour.mk 6000 [(0, 0), (90, 0), (90, 66), (0, 66)] true) := by
    norm_num [findCardContour, survivors, sortByAreaDesc, insertByAreaDesc,
      defaultConfig, List.filter]
  exact c6_shape_filter _ _ _ _ _ h

/-- C7: whenever at least one candidate survives the filter, the
selector returns exactly one of them: a candidate of maximal area, and
among candidates of maximal area the first one in encounter order
(every candidate strictly before the returned one has strictly smaller
area) — the behaviour of a stable descending-area sort followed by
taking the first element. -/
theorem c7_first_max_selected (cfg : Config) (contours : List Contour) (imgH imgW : ℕ)
    (h : survivors cfg contours imgH imgW ≠ []) :
    ∃ c, findCardContour cfg contours imgH imgW = some c ∧
      c ∈ survivors cfg contours imgH imgW ∧
      (∀ d ∈ survivors cfg contours imgH imgW, d.area ≤ c.area) ∧
      ∃ l1 l2, survivors cfg contours imgH imgW = l1 ++ c :: l2 ∧
        ∀ d ∈ l1, d.area < c.area := by
  cases hh : sortByAreaDesc (survivors cfg contours imgH imgW) with
  | nil => exact absurd (sortByAreaDesc_eq_nil.mp hh) h
  | cons c rest =>
    have hhead : (sortByAreaDesc (survivors cfg contours imgH imgW)).head? = some c := by
      rw [hh]; rfl
    have hk := head_sortByAreaDesc hhead
    exact ⟨c, hhead, hk.1, hk.2.1, hk.2.2⟩

/-- Witness for C7: two surviving candidates of equal area; the
selector returns a candidate. -/
theorem c7_first_max_selected_witness :
    (findCardContour defaultConfig
        [Contour.mk 5000 [(0, 0), (80, 0), (80, 60), (0, 60)] true,
         Contour.mk 5000 [(1, 0), (81, 0), (81, 60), (1, 60)] true] 100 100).isSome
      = true := by
  obtain ⟨c, hc, -, -, -⟩ := c7_first_max_selected defaultConfig
    [Contour.mk 5000 [(0, 0), (80, 0), (80, 60), (0, 60)] true,
     Contour.mk 5000 [(1, 0), (81, 0), (81, 60), (1, 60)] true] 100 100
    (by norm_num [survivors, defaultConfig, List.filter]; simp)
  rw [hc]
  rfl

/-- C1 (amended): the rectified image produced by the perspective
transform always has width ≥ 100 and height ≥ 60, and when its
dimensions are already within `MAX_OCR_DIM` the output clamp leaves it
unchanged, so the final output keeps these minimums; the clamp itself,
when it fires, can scale the shorter side below them. -/
theorem c1_min_dims_before_clamp (contour : List (ℤ × ℤ)) :
    100 ≤ (rectifiedImg contour).w ∧ 60 ≤ (rectifiedImg contour).h ∧
      (max (rectifiedImg contour).h (rectifiedImg contour).w ≤ MAX_OCR_DIM →
        clampToOcr (rectifiedImg contour) = rectifiedImg contour) := by
  refine ⟨?_, ?_, ?_⟩
  · show 100 ≤ (perspectiveDims contour).1
    simp only [perspectiveDims]
    exact le_max_right _ _
  · show 60 ≤ (perspectiveDims contour).2
    simp only [perspectiveDims]
    exact le_max_right _ _
  · intro hle
    unfold clampToOcr
    rw [if_neg (not_lt.mpr hle)]

/-- Witness for C1 (amended): a 200×120 detected rectangle is
rectified to a 200×120 image and the clamp leaves it unchanged. -/
theorem c1_min_dims_before_clamp_witness :
    100 ≤ (rectifiedImg [(0 : ℤ × ℤ), (200, 0), (200, 120), (0, 120)]).w ∧
    60 ≤ (rectifiedImg [(0 : ℤ × ℤ), (200, 0), (200, 120), (0, 120)]).h ∧
    clampToOcr (rectifiedImg [(0 : ℤ × ℤ), (200, 0), (200, 120), (0, 120)])
      = rectifiedImg [(0 : ℤ × ℤ), (200, 0), (200, 120), (0, 120)] := by
  have h := c1_min_dims_before_clamp [(0 : ℤ × ℤ), (200, 0), (200, 120), (0, 120)]
  have he : rectifiedImg [(0 : ℤ × ℤ), (200, 0), (200, 120), (0, 120)] = ⟨120, 200⟩ := by
    norm_num [rectifiedImg, perspectiveDims, orderPoints, argminBy, argmaxBy, sumXY,
      diffYX, isqrtFloor, distSq, toDim, pyInt] ; simp ; norm_num
  exact ⟨h.1, h.2.1, h.2.2 (by rw [he]; norm_num [MAX_OCR_DIM])⟩

/-- C1 counterexample: with fallback disabled, a thin detected sliver
in a 4000×200 image is rectified to width 100 and height 4000
(minimums applied), then the `MAX_OCR_DIM` clamp halves both sides and
`detect_from_array` returns a 50-wide image — below the claimed
width ≥ 100. -/
theorem c1_counterexample :
    detectFromArray defaultConfig (some ⟨4000, 200⟩)
        [[Contour.mk 6000 [(0 : ℤ × ℤ), (4, 0), (4, 1500), (0, 1500)] true], [], [], []] false
      = some ⟨2000, 50⟩ ∧ (50 : ℕ) < 100 := by
  have h1 : resizedDims 4000 200 = ⟨1500, 75, 3/8⟩ := by
    norm_num [resizedDims, MAX_PROCESS_DIM, toDim, pyInt] ; simp
  have h2 : findCardContour defaultConfig
      [Contour.mk 6000 [(0 : ℤ × ℤ), (4, 0), (4, 1500), (0, 1500)] true] 1500 75
      = some (Contour.mk 6000 [(0 : ℤ × ℤ), (4, 0), (4, 1500), (0, 1500)] true) := by
    norm_num [findCardContour, survivors, sortByAreaDesc, insertByAreaDesc,
      defaultConfig, List.filter]
  have h3 : scaleBack ((3 : ℚ)/8) (Contour.mk 6000 [(0 : ℤ × ℤ), (4, 0), (4, 1500), (0, 1500)] true).approx
      = [(0 : ℤ × ℤ), (10, 0), (10, 4000), (0, 4000)] := by
    norm_num [scaleBack, pyInt]
  have h4 : perspectiveDims [(0 : ℤ × ℤ), (10, 0), (10, 4000), (0, 4000)] = (100, 4000) := by
    norm_num [perspectiveDims, orderPoints, argminBy, argmaxBy, sumXY, diffYX,
      isqrtFloor, distSq, toDim, pyInt] ; simp ; norm_num
  have h5 : clampToOcr ⟨4000, 100⟩ = ⟨2000, 50⟩ := by
    norm_num [clampToOcr, MAX_OCR_DIM, toDim, pyInt] ; simp
  refine ⟨?_, by norm_num⟩
  simp only [detectFromArray, h1]
  norm_num [tryStrategies, h2, h3, rectifiedImg, h4, h5]

/-- C3 counterexample: a 100×100 image on which every strategy fails
yields `None` from `detect_from_array` even with
`fallback_resize=True`, because the fallback branch additionally
requires `max(orig_h, orig_w) > MAX_OCR_DIM`. -/
theorem c3_counterexample :
    detectFromArray defaultConfig (some ⟨100, 100⟩) [[], [], [], []] true = none := by
  simp [detectFromArray, tryStrategies, resizedDims, MAX_PROCESS_DIM, MAX_OCR_DIM]

/-- C3 (amended): when every strategy fails and `fallback_resize=True`,
`detect_from_array` returns a resized copy of the original exactly when
`max(orig_h, orig_w) > MAX_OCR_DIM`, and `None` otherwise. -/
theorem c3_fallback_only_when_large (cfg : Config) (im : Img) (strat : List (List Contour))
    (hfail : tryStrategies cfg (resizedDims im.h im.w) strat = none)
    (hne : ¬ im.h * im.w = 0) :
    (detectFromArray cfg (some im) strat true = none ↔ max im.h im.w ≤ MAX_OCR_DIM) := by
  simp only [detectFromArray, hfail]
  rw [if_neg hne]
  by_cases hc : MAX_OCR_DIM < max im.h im.w
  · rw [if_pos ⟨trivial, hc⟩]
    constructor
    · intro h'
      exact absurd h' (by simp)
    · intro h'
      exact absurd hc (not_lt.mpr h')
  · rw [if_neg (fun hco => hc hco.2)]
    exact ⟨fun _ => not_lt.mp hc, fun _ => rfl⟩

/-- Witness for C3 (amended): a uniform 3000×1000 image with the
fallback enabled; the equivalence holds at this input (here the
fallback fires, so the result is not `None`). -/
theorem c3_fallback_only_when_large_witness :
    (detectFromArray defaultConfig (some ⟨3000, 1000⟩) [[], [], [], []] true = none ↔
      max 3000 1000 ≤ MAX_OCR_DIM) := by
  exact c3_fallback_only_when_large defaultConfig ⟨3000, 1000⟩ [[], [], [], []]
    (by simp [tryStrategies]) (by norm_num)

/-- C8: every image returned by `detect_from_array` — through the
rectification path (clamped when oversized) or the fallback path — has
`max(width, height) ≤ MAX_OCR_DIM`. -/
theorem c8_output_within_max_ocr (cfg : Config) (img : Option Img)
    (strat : List (List Contour)) (fb : Bool) (im : Img)
    (h : detectFromArray cfg img strat fb = some im) :
    max im.w im.h ≤ MAX_OCR_DIM := by
  cases img with
  | none => simp [detectFromArray] at h
  | some im0 =>
    simp only [detectFromArray] at h
    by_cases h0 : im0.h * im0.w = 0
    · rw [if_pos h0] at h
      exact absurd h (by simp)
    · rw [if_neg h0] at h
      cases hts : tryStrategies cfg (resizedDims im0.h im0.w) strat with
      | some out =>
        rw [hts] at h
        simp only [Option.some.injEq] at h
        have hb := tryStrategies_some_le hts
        rw [← h]
        exact max_le hb.2 hb.1
      | none =>
        rw [hts] at h
        simp only at h
        by_cases hf : fb = true ∧ MAX_OCR_DIM < max im0.h im0.w
        · rw [if_pos hf] at h
          simp only [Option.some.injEq] at h
          have hclamp : clampToOcr ⟨im0.h, im0.w⟩
              = ⟨toDim ((im0.h : ℚ) * ((MAX_OCR_DIM : ℚ) / ((max im0.h im0.w : ℕ) : ℚ))),
                 toDim ((im0.w : ℚ) * ((MAX_OCR_DIM : ℚ) / ((max im0.h im0.w : ℕ) : ℚ)))⟩ := by
            unfold clampToOcr
            rw [if_pos hf.2]
          have hb := clampToOcr_le (⟨im0.h, im0.w⟩ : Img)
          rw [hclamp] at hb
          rw [← h]
          exact max_le hb.2 hb.1
        · rw [if_neg hf] at h
          exact absurd h (by simp)

/-- Witness for C8: a uniform 3000×1000 image with the fallback
enabled is returned as a 2000×666 image, which is within the bound. -/
theorem c8_output_within_max_ocr_witness :
    max (Img.mk 2000 666).w (Img.mk 2000 666).h ≤ MAX_OCR_DIM := by
  have h1 : tryStrategies defaultConfig (resizedDims 3000 1000) [[], [], [], []] = none := by
    simp [tryStrategies]
  have e1 : toDim ((3000 : ℚ) * ((MAX_OCR_DIM : ℚ) / ((max 3000 1000 : ℕ) : ℚ))) = 2000 := by
    apply toDim_eq <;> norm_num [MAX_OCR_DIM]
  have e2 : toDim ((1000 : ℚ) * ((MAX_OCR_DIM : ℚ) / ((max 3000 1000 : ℕ) : ℚ))) = 666 := by
    apply toDim_eq <;> norm_num [MAX_OCR_DIM]
  have hd : detectFromArray defaultConfig (some ⟨3000, 1000⟩) [[], [], [], []] true
      = some ⟨2000, 666⟩ := by
    simp only [detectFromArray, h1]
    rw [if_neg (by norm_num)]
    rw [if_pos ⟨trivial, by norm_num [MAX_OCR_DIM]⟩]
    push_cast at e1 e2 ⊢
    rw [e1, e2]
  exact c8_output_within_max_ocr defaultConfig (some ⟨3000, 1000⟩) [[], [], [], []] true
    ⟨2000, 666⟩ hd

/-- C9: `detect` returns `None` when the image file cannot be decoded,
and `detect_from_array` returns `None` for an absent image or an empty
pixel buffer, for every configuration, strategy outcome and
`fallback_resize` value; all three cases are total (no exception). -/
theorem c9_none_on_bad_input (cfg : Config) (strat : List (List Contour)) (fb : Bool) :
    detect cfg none strat fb = none ∧
    detectFromArray cfg none strat fb = none ∧
    ∀ im : Img, im.h * im.w = 0 → detectFromArray cfg (some im) strat fb = none := by
  refine ⟨rfl, rfl, ?_⟩
  intro im h0
  simp only [detectFromArray]
  rw [if_pos h0]

/-- Witness for C9: a failed decode and a 0×5 empty buffer both give
`None` under the default configuration. -/
theorem c9_none_on_bad_input_witness :
    detect defaultConfig none [] true = none ∧
    detectFromArray defaultConfig (some ⟨0, 5⟩) [] true = none := by
  refine ⟨(c9_none_on_bad_input defaultConfig [] true).1, ?_⟩
  exact (c9_none_on_bad_input defaultConfig [] true).2.2 ⟨0, 5⟩ (by norm_num)

/-- C10: for a non-empty image with `max(orig_h, orig_w) ≤ MAX_OCR_DIM`
on which the strategy loop finds nothing, `detect_from_array` returns
`None` for every `fallback_resize` value: the fallback branch fires
only above `MAX_OCR_DIM`. -/
theorem c10_fallback_gated_by_size (cfg : Config) (im : Img) (strat : List (List Contour))
    (fb : Bool) (hne : ¬ im.h * im.w = 0)
    (hfail : tryStrategies cfg (resizedDims im.h im.w) strat = none)
    (hsmall : max im.h im.w ≤ MAX_OCR_DIM) :
    detectFromArray cfg (some im) strat fb = none := by
  simp only [detectFromArray, hfail]
  rw [if_neg hne]
  rw [if_neg (fun hco => (not_lt.mpr hsmall) hco.2)]

/-- Witness for C10: a 480×640 image on which every strategy fails
yields `None` even with the fallback enabled. -/
theorem c10_fallback_gated_by_size_witness :
    detectFromArray defaultConfig (some ⟨480, 640⟩) [[], [], [], []] true = none :=
  c10_fallback_gated_by_size defaultConfig ⟨480, 640⟩ [[], [], [], []] true
    (by norm_num) (by simp [tryStrategies]) (by norm_num [MAX_OCR_DIM])

end BusinessCard
